import Mathlib

/-!
Verification of the eloizer CLI layer (orchestration and reporting of a
static analyzer). The definitions below are a shallow embedding of the
Rust sources under `src/cli/src/`:

* `analyze.rs`  — the analysis pipeline: option building, severity-ignore
  parsing, console summary / detailed findings printing, report saving;
* `config.rs`   — the config-file entry point that maps a parsed config
  onto the analyze pipeline;
* `list_rules.rs` — the severity-grouped rule listing;
* `rule_info.rs`  — case-insensitive rule lookup.

Rust strings are modelled as `List Char` (`RStr`); `str::trim`,
`str::to_lowercase` and `split(',')` are modelled character-wise (the
inputs of interest are ASCII, where Lean's `Char.toLower` and the
whitespace predicate coincide with Rust's behavior).
-/

namespace Eloizer

/-- `analyzer::Severity` (engine enum, used pervasively by the CLI). -/
inductive Severity where
  | High
  | Medium
  | Low
  | Informational
deriving DecidableEq, Repr

/-- `analyzer::RuleType` (engine enum; the CLI always requests all three). -/
inductive RuleType where
  | Solana
  | Anchor
  | General
deriving DecidableEq, Repr

/-- A Rust string, modelled as its character sequence. -/
abbrev RStr := List Char

/-- ASCII whitespace recognized by `str::trim` (the Unicode cases do not
occur in the inputs considered here). -/
def isWsChar (c : Char) : Bool :=
  c = ' ' || c = '\t' || c = '\n' || c = '\r'

/-- `str::trim`: strip leading and trailing whitespace. -/
def trimChars (l : RStr) : RStr :=
  ((l.dropWhile isWsChar).reverse.dropWhile isWsChar).reverse

/-- `str::to_lowercase` restricted to ASCII (as in the severity tokens and
rule ids this layer compares). -/
def toLowerAscii (l : RStr) : RStr :=
  l.map Char.toLower

/-- `str::split(',')`: split on commas; an input with no comma yields one
token, and every comma separates two (possibly empty) tokens. -/
def splitOnComma : RStr → List RStr
  | [] => [[]]
  | c :: rest =>
    if c = ',' then [] :: splitOnComma rest
    else
      match splitOnComma rest with
      | [] => [[c]]
      | t :: ts => (c :: t) :: ts

/-- `analyzer::Location` (`file`, `line`). -/
structure Location where
  file : String
  line : Nat
deriving DecidableEq, Repr

/-- `analyzer::Finding` as read by the CLI renderers. -/
structure Finding where
  severity : Severity
  description : String
  location : Location
  code_snippet : Option String
  recommendations : List String
deriving DecidableEq, Repr

/-- A rule catalog entry as read by `list_rules.rs` / `rule_info.rs`. -/
structure Rule where
  id : RStr
  title : String
  description : String
  severity : Severity
deriving DecidableEq, Repr

/-- The canonical severity iteration order, as written literally in
`print_summary`, `print_findings` (analyze.rs) and `list_rules::run`:
`[High, Medium, Low, Informational]`. -/
def severityOrder : List Severity :=
  [.High, .Medium, .Low, .Informational]

/-- The severity group of `xs` for severity `s` under projection `sev`.
In `print_findings` this is the `HashMap` bucket built by pushing each
finding onto `entry(severity)` in input order; in `list_rules::run` it is
the explicit `filter` — both are the order-preserving filter. -/
def severityGroup {α : Type} (sev : α → Severity) (xs : List α) (s : Severity) : List α :=
  xs.filter (fun x => sev x == s)

/-- The grouped view emitted by `print_findings` and `list_rules::run`:
iterate `severityOrder` and emit `(severity, group)` for each non-empty
group (`print_findings` skips severities absent from the map, i.e. with
no finding; `list_rules` has an explicit `continue` on empty groups). -/
def groupsBySeverity {α : Type} (sev : α → Severity) (xs : List α) : List (Severity × List α) :=
  severityOrder.filterMap (fun s =>
    if (severityGroup sev xs s).isEmpty then none
    else some (s, severityGroup sev xs s))

/-- `print_findings`' severity grouping of the findings (analyze.rs 295-311). -/
def printFindingsGroups (fs : List Finding) : List (Severity × List Finding) :=
  groupsBySeverity Finding.severity fs

/-- Shorthand for a findings severity group (the detail view's partition). -/
def findingsGroup (fs : List Finding) (s : Severity) : List Finding :=
  severityGroup Finding.severity fs s

/-- `list_rules::run`'s severity grouping of the (possibly pre-filtered)
rule list (list_rules.rs 38-51). -/
def listRulesGroups (rs : List Rule) : List (Severity × List Rule) :=
  groupsBySeverity Rule.severity rs

/-- Group of rules for one severity in the listing. -/
def rulesGroup (rs : List Rule) (s : Severity) : List Rule :=
  severityGroup Rule.severity rs s

lemma groupsBySeverity_map_fst {α : Type} (sev : α → Severity) (xs : List α) :
    (groupsBySeverity sev xs).map Prod.fst
      = severityOrder.filter (fun s => !(severityGroup sev xs s).isEmpty) := by
  unfold groupsBySeverity
  induction severityOrder with
  | nil => rfl
  | cons s ss ih =>
    simp only [List.filterMap_cons, List.filter_cons]
    cases h : (severityGroup sev xs s).isEmpty with
    | true => simpa [h] using ih
    | false => simpa [h] using ih

lemma groupsBySeverity_mem {α : Type} (sev : α → Severity) (xs : List α)
    (s : Severity) (g : List α) (h : (s, g) ∈ groupsBySeverity sev xs) :
    g ≠ [] ∧ g = severityGroup sev xs s := by
  unfold groupsBySeverity at h
  rcases List.mem_filterMap.mp h with ⟨t, _, ht⟩
  by_cases he : (severityGroup sev xs t).isEmpty = true
  · simp [he] at ht
  · rw [Bool.not_eq_true] at he
    rw [he] at ht
    simp only [Bool.false_eq_true, if_false] at ht
    obtain ⟨rfl, rfl⟩ := Prod.mk.inj (Option.some.inj ht)
    refine ⟨fun hg => ?_, rfl⟩
    rw [hg] at he
    simp at he

lemma severityGroup_perm {α : Type} (sev : α → Severity) {xs ys : List α}
    (h : xs.Perm ys) (s : Severity) :
    (severityGroup sev xs s).Perm (severityGroup sev ys s) :=
  h.filter _

lemma groupsBySeverity_map_fst_perm {α : Type} (sev : α → Severity) {xs ys : List α}
    (h : xs.Perm ys) :
    (groupsBySeverity sev xs).map Prod.fst = (groupsBySeverity sev ys).map Prod.fst := by
  rw [groupsBySeverity_map_fst, groupsBySeverity_map_fst]
  apply List.filter_congr
  intro s _
  have hlen := (severityGroup_perm sev h s).length_eq
  have hiso : (severityGroup sev xs s).isEmpty = (severityGroup sev ys s).isEmpty := by
    rw [Bool.eq_iff_iff, List.isEmpty_iff_length_eq_zero,
      List.isEmpty_iff_length_eq_zero, hlen]
  rw [hiso]

/-- C1: every grouped severity view (console detailed findings and rule
listing) emits severity groups in exactly the canonical order High,
Medium, Low, Informational restricted to non-empty groups, regardless of
input order, and never reorders entries within a severity group relative
to input order (stable partition). -/
theorem grouped_views_canonical_order :
    (∀ fs : List Finding,
        ((printFindingsGroups fs).map Prod.fst).Sublist severityOrder ∧
        (printFindingsGroups fs).map Prod.fst
          = severityOrder.filter (fun s => !(findingsGroup fs s).isEmpty) ∧
        (∀ s g, (s, g) ∈ printFindingsGroups fs → g ≠ [] ∧ g = findingsGroup fs s)) ∧
    (∀ fs gs : List Finding, fs.Perm gs →
        (printFindingsGroups fs).map Prod.fst = (printFindingsGroups gs).map Prod.fst) ∧
    (∀ rs : List Rule,
        ((listRulesGroups rs).map Prod.fst).Sublist severityOrder ∧
        (listRulesGroups rs).map Prod.fst
          = severityOrder.filter (fun s => !(rulesGroup rs s).isEmpty) ∧
        (∀ s g, (s, g) ∈ listRulesGroups rs → g ≠ [] ∧ g = rulesGroup rs s)) ∧
    (∀ rs ts : List Rule, rs.Perm ts →
        (listRulesGroups rs).map Prod.fst = (listRulesGroups ts).map Prod.fst) := by
  unfold printFindingsGroups findingsGroup listRulesGroups rulesGroup
  refine ⟨fun fs => ⟨?_, ?_, ?_⟩, fun fs gs h => ?_, fun rs => ⟨?_, ?_, ?_⟩, fun rs ts h => ?_⟩
  · rw [groupsBySeverity_map_fst]
    exact List.filter_sublist _
  · exact groupsBySeverity_map_fst _ _
  · exact fun s g => groupsBySeverity_mem _ _ s g
  · exact groupsBySeverity_map_fst_perm _ h
  · rw [groupsBySeverity_map_fst]
    exact List.filter_sublist _
  · exact groupsBySeverity_map_fst _ _
  · exact fun s g => groupsBySeverity_mem _ _ s g
  · exact groupsBySeverity_map_fst_perm _ h

lemma severityGroup_cons_length {α : Type} (sev : α → Severity) (x : α) (xs : List α)
    (s : Severity) :
    (severityGroup sev (x :: xs) s).length
      = (if sev x == s then 1 else 0) + (severityGroup sev xs s).length := by
  simp only [severityGroup, List.filter_cons]
  cases h : (sev x == s) <;> simp
  omega

lemma sum_group_lengths {α : Type} (sev : α → Severity) (xs : List α) :
    (severityOrder.map (fun s => (severityGroup sev xs s).length)).sum = xs.length := by
  induction xs with
  | nil => rfl
  | cons x xs ih =>
    simp only [severityOrder, List.map_cons, List.map_nil, List.sum_cons,
      List.sum_nil] at ih ⊢
    rw [severityGroup_cons_length, severityGroup_cons_length,
      severityGroup_cons_length, severityGroup_cons_length]
    cases hx : sev x <;> simp [hx, beq_iff_eq] <;> omega

lemma groupsBySeverity_map_snd {α : Type} (sev : α → Severity) (xs : List α) :
    (groupsBySeverity sev xs).map Prod.snd
      = (severityOrder.map (fun s => severityGroup sev xs s)).filter
          (fun g => !g.isEmpty) := by
  unfold groupsBySeverity
  induction severityOrder with
  | nil => rfl
  | cons s ss ih =>
    simp only [List.filterMap_cons, List.map_cons, List.filter_cons]
    cases h : (severityGroup sev xs s).isEmpty with
    | true => simpa [h] using ih
    | false => simpa [h] using ih

lemma flatten_filter_not_isEmpty {α : Type} (L : List (List α)) :
    (L.filter (fun l => !l.isEmpty)).flatten = L.flatten := by
  induction L with
  | nil => rfl
  | cons l L ih =>
    cases l with
    | nil => simpa using ih
    | cons a t => simpa using congrArg (fun r => a :: t ++ r) ih

/-- The single finding sequence the detail view walks: all severity groups
concatenated in canonical order (analyze.rs 304-373, the nested loops). -/
def detailSequence (fs : List Finding) : List Finding :=
  ((printFindingsGroups fs).map Prod.snd).flatten

/-- The running index of `print_findings`: `index` starts at `1` and is
incremented once per printed finding, across group boundaries. -/
def numberFrom : Nat → List Finding → List (Nat × Finding)
  | _, [] => []
  | i, f :: rest => (i, f) :: numberFrom (i + 1) rest

/-- The numbered findings as printed by the detail view. -/
def printFindingsNumbered (fs : List Finding) : List (Nat × Finding) :=
  numberFrom 1 (detailSequence fs)

lemma numberFrom_map_fst (l : List Finding) :
    ∀ i, (numberFrom i l).map Prod.fst = List.range' i l.length := by
  induction l with
  | nil => intro i; rfl
  | cons f fs ih =>
    intro i
    simp only [numberFrom, List.map_cons, List.length_cons, List.range'_succ, ih]

lemma detailSequence_length (fs : List Finding) :
    (detailSequence fs).length = fs.length := by
  unfold detailSequence printFindingsGroups
  rw [groupsBySeverity_map_snd, flatten_filter_not_isEmpty, List.length_flatten,
    List.map_map]
  exact sum_group_lengths Finding.severity fs

/-- C4: the detail view numbers findings with a single counter that starts
at 1 and increases across all severity groups without resetting, so with
`n` findings the printed numbers are exactly `1, …, n`. -/
theorem detail_numbering (fs : List Finding) :
    (printFindingsNumbered fs).map Prod.fst = List.range' 1 fs.length := by
  unfold printFindingsNumbered
  rw [numberFrom_map_fst, detailSequence_length]

/-- `AnalysisResult.stats` as read by `print_summary`: the per-severity
count map (a `HashMap`, modelled as a partial function). -/
structure Stats where
  findings_by_severity : Severity → Option Nat

/-- `analyzer::AnalysisResult` as consumed by the CLI. -/
structure AnalysisResult where
  findings : List Finding
  stats : Stats

/-- `print_summary`'s total: `analysis_result.findings.len()` (analyze.rs 245). -/
def summaryTotal (r : AnalysisResult) : Nat :=
  r.findings.length

/-- `print_summary`'s per-severity count, looked up in
`stats.findings_by_severity` (analyze.rs 254-267). -/
def summaryCount (r : AnalysisResult) (s : Severity) : Option Nat :=
  r.stats.findings_by_severity s

/-- The summary's per-severity lines in canonical order: one line per
severity present in the stats map (analyze.rs 261-282). -/
def summaryLines (r : AnalysisResult) : List (Severity × Nat) :=
  severityOrder.filterMap (fun s => (summaryCount r s).map (fun c => (s, c)))

/-- Modelled from the spec: the analysis engine (an external collaborator,
its crate is not part of this CLI source tree) "must populate
`stats.findings_by_severity` consistently with the returned `findings`" —
an absent entry stands for zero and a present entry equals the number of
findings carrying that severity. -/
def StatsConsistent (r : AnalysisResult) : Prop :=
  ∀ s, (r.stats.findings_by_severity s).getD 0 = (findingsGroup r.findings s).length

/-- C2: the console summary's total is `findings.len()`, its per-severity
counts are read from `stats.findings_by_severity`, and (under the
engine's stats-consistency contract) each such count agrees with the size
of the severity group the detail view derives independently by
partitioning the findings; the counts also sum to the total. -/
theorem summary_counts_consistent (r : AnalysisResult) (h : StatsConsistent r) :
    summaryTotal r = r.findings.length ∧
    (∀ s c, summaryCount r s = some c → c = (findingsGroup r.findings s).length) ∧
    (severityOrder.map (fun s => (summaryCount r s).getD 0)).sum = r.findings.length := by
  refine ⟨rfl, fun s c hc => ?_, ?_⟩
  · have := h s
    rw [summaryCount] at hc
    rw [hc] at this
    simpa using this
  · have hmap : severityOrder.map (fun s => (summaryCount r s).getD 0)
        = severityOrder.map (fun s => (findingsGroup r.findings s).length) := by
      apply List.map_congr_left
      intro s _
      exact h s
    rw [hmap]
    exact sum_group_lengths Finding.severity r.findings

/-- A concrete high-severity finding used by witnesses. -/
def exFindingHigh : Finding :=
  { severity := .High, description := "d", location := { file := "f", line := 1 },
    code_snippet := none, recommendations := [] }

/-- A concrete low-severity finding used by witnesses. -/
def exFindingLow : Finding :=
  { severity := .Low, description := "e", location := { file := "g", line := 2 },
    code_snippet := none, recommendations := [] }

/-- A concrete analysis result with consistent stats. -/
def exResult : AnalysisResult :=
  { findings := [exFindingHigh],
    stats := { findings_by_severity := fun s =>
      match s with
      | .High => some 1
      | _ => none } }

/-- Witness for C2 at a concrete consistent result. -/
theorem summary_counts_consistent_witness :
    summaryTotal exResult = 1 ∧
    (∀ s c, summaryCount exResult s = some c → c = (findingsGroup exResult.findings s).length) := by
  have h : StatsConsistent exResult := by
    intro s
    cases s <;> rfl
  have hc := summary_counts_consistent exResult h
  exact ⟨hc.1.trans rfl, hc.2.1⟩

/-- Witness for C1 at concrete inputs: a non-empty group membership
instance and a permutation instance. -/
theorem grouped_views_canonical_order_witness :
    ((severityOrder.filter (fun s => !(findingsGroup [exFindingHigh] s).isEmpty))
        = [Severity.High] ∧
      ([exFindingHigh] ≠ [] ∧
        [exFindingHigh] = findingsGroup [exFindingHigh] Severity.High)) ∧
    (printFindingsGroups [exFindingLow, exFindingHigh]).map Prod.fst
      = (printFindingsGroups [exFindingHigh, exFindingLow]).map Prod.fst := by
  refine ⟨⟨by decide, ?_⟩, ?_⟩
  · exact (grouped_views_canonical_order.1 [exFindingHigh]).2.2
      Severity.High [exFindingHigh] (by decide)
  · exact grouped_views_canonical_order.2.1 [exFindingLow, exFindingHigh]
      [exFindingHigh, exFindingLow] (by decide)

/-- The token recognition of analyze.rs 141-150: `sev.trim().to_lowercase()`
matched against the four literal severity names; anything else is
unrecognized. -/
def severityOfToken (t : RStr) : Option Severity :=
  if toLowerAscii (trimChars t) = "high".data then some .High
  else if toLowerAscii (trimChars t) = "medium".data then some .Medium
  else if toLowerAscii (trimChars t) = "low".data then some .Low
  else if toLowerAscii (trimChars t) = "informational".data then some .Informational
  else none

/-- The `for sev in ignore_str.split(',')` loop of analyze.rs 140-152:
recognized tokens are pushed onto `ignore_severities` in order;
unrecognized tokens are logged via `warn!` (collected in the second
component here) and dropped. -/
def parseSevLoop : List RStr → List Severity × List RStr
  | [] => ([], [])
  | t :: ts =>
    let p := parseSevLoop ts
    match severityOfToken t with
    | some s => (s :: p.1, p.2)
    | none => (p.1, t :: p.2)

/-- Parse a comma-separated severity ignore string: the recognized
severities in order, plus the tokens that drew a warning. -/
def parseIgnoreSeverities (s : RStr) : List Severity × List RStr :=
  parseSevLoop (splitOnComma s)

/-- analyze.rs 155-159: every comma-separated token is trimmed and pushed
as a literal rule id, with no validation. -/
def parseIgnoreRules (s : RStr) : List RStr :=
  (splitOnComma s).map trimChars

/-- `analyzer::AnalysisOptions` as populated by analyze.rs 130-159. -/
structure AnalysisOptions where
  generate_ast : Bool
  custom_templates_path : Option String
  include_rule_types : List RuleType
  ignore_severities : List Severity
  ignore_rules : List RStr
deriving DecidableEq, Repr

/-- Modelled from the spec: `AnalysisOptions::default()` lives in the
engine crate, outside this source tree; per the spec the ignore
collections default to empty, `generate_ast` to false, and
`include_rule_types` to the full set of known rule types. -/
def defaultOptions : AnalysisOptions :=
  { generate_ast := false
    custom_templates_path := none
    include_rule_types := [.Solana, .Anchor, .General]
    ignore_severities := []
    ignore_rules := [] }

/-- analyze.rs 130-159: build the `AnalysisOptions` handed to the engine
from the command parameters. -/
def buildOptions (templates : Option String) (genAst : Bool)
    (ignore : Option RStr) (ignoreRulesArg : Option RStr) : AnalysisOptions :=
  let o1 := { defaultOptions with
    generate_ast := genAst
    custom_templates_path := templates
    include_rule_types := [.Solana, .Anchor, .General] }
  let o2 := match ignore with
    | none => o1
    | some s =>
      { o1 with ignore_severities := o1.ignore_severities ++ (parseIgnoreSeverities s).1 }
  match ignoreRulesArg with
  | none => o2
  | some s => { o2 with ignore_rules := o2.ignore_rules ++ parseIgnoreRules s }

lemma splitOnComma_ne_nil (s : RStr) : splitOnComma s ≠ [] := by
  cases s with
  | nil => simp [splitOnComma]
  | cons c rest =>
    simp only [splitOnComma]
    by_cases h : c = ','
    · simp [h]
    · rw [if_neg h]
      cases hs : splitOnComma rest <;> simp

lemma splitOnComma_no_comma (t : RStr) (h : ',' ∉ t) : splitOnComma t = [t] := by
  induction t with
  | nil => rfl
  | cons c rest ih =>
    have hc : ¬ c = ',' := by
      intro e
      subst e
      exact h (List.mem_cons_self _ _)
    have h2 : ',' ∉ rest := fun hm => h (List.mem_cons_of_mem _ hm)
    simp only [splitOnComma]
    rw [if_neg hc, ih h2]

lemma splitOnComma_append (s t : RStr) (ht : ',' ∉ t) :
    splitOnComma (s ++ ',' :: t) = splitOnComma s ++ [t] := by
  induction s with
  | nil => simp [splitOnComma, splitOnComma_no_comma t ht]
  | cons c s ih =>
    simp only [List.cons_append, splitOnComma, List.append_eq]
    by_cases h : c = ','
    · rw [if_pos h, if_pos h, ih]
      rfl
    · rw [if_neg h, if_neg h, ih]
      cases hs : splitOnComma s with
      | nil => exact absurd hs (splitOnComma_ne_nil s)
      | cons u us => simp

lemma parseSevLoop_fst (toks : List RStr) :
    (parseSevLoop toks).1 = toks.filterMap severityOfToken := by
  induction toks with
  | nil => rfl
  | cons t ts ih =>
    simp only [parseSevLoop, List.filterMap_cons]
    cases h : severityOfToken t <;> simp [h, ih]

lemma parseSevLoop_drop_unrecognized (toks1 toks2 : List RStr) (t : RStr)
    (h : severityOfToken t = none) :
    (parseSevLoop (toks1 ++ t :: toks2)).1 = (parseSevLoop (toks1 ++ toks2)).1 ∧
    t ∈ (parseSevLoop (toks1 ++ t :: toks2)).2 := by
  induction toks1 with
  | nil => simp [parseSevLoop, h]
  | cons u us ih =>
    simp only [List.cons_append, parseSevLoop]
    cases hu : severityOfToken u <;> simp [ih.1, ih.2]

/-- C3: parsing the severity ignore string splits on commas, trims and
lower-cases each token, maps the recognized names to severities, and
drops unrecognized tokens with a (non-fatal) warning, proceeding with the
recognized remainder. -/
theorem ignore_severities_parsing :
    (parseIgnoreSeverities " Low , MEDIUM ".data = ([Severity.Low, Severity.Medium], [])) ∧
    (parseIgnoreSeverities " Low , MEDIUM ,critical".data
      = ([Severity.Low, Severity.Medium], ["critical".data])) ∧
    (∀ t : RStr,
        (toLowerAscii (trimChars t) = "high".data → severityOfToken t = some .High) ∧
        (toLowerAscii (trimChars t) = "medium".data → severityOfToken t = some .Medium) ∧
        (toLowerAscii (trimChars t) = "low".data → severityOfToken t = some .Low) ∧
        (toLowerAscii (trimChars t) = "informational".data →
          severityOfToken t = some .Informational)) ∧
    (∀ toks1 toks2 : List RStr, ∀ t, severityOfToken t = none →
        (parseSevLoop (toks1 ++ t :: toks2)).1 = (parseSevLoop (toks1 ++ toks2)).1 ∧
        t ∈ (parseSevLoop (toks1 ++ t :: toks2)).2) ∧
    (∀ s t : RStr, severityOfToken t = none → ',' ∉ t →
        ∀ tpl g ir, (buildOptions tpl g (some (s ++ ',' :: t)) ir).ignore_severities
          = (buildOptions tpl g (some s) ir).ignore_severities) := by
  refine ⟨by decide, by decide, fun t => ⟨fun h => ?_, fun h => ?_, fun h => ?_, fun h => ?_⟩,
    parseSevLoop_drop_unrecognized, fun s t hnone hcomma tpl g ir => ?_⟩
  · simp only [severityOfToken, h]
    decide
  · simp only [severityOfToken, h]
    decide
  · simp only [severityOfToken, h]
    decide
  · simp only [severityOfToken, h]
    decide
  · have hsplit := splitOnComma_append s t hcomma
    have hdrop := (parseSevLoop_drop_unrecognized (splitOnComma s) [] t hnone).1
    rw [List.append_nil] at hdrop
    cases ir <;>
      simp [buildOptions, parseIgnoreSeverities, hsplit, ← List.append_cons, hdrop]

/-- Witness for C3 at concrete inputs. -/
theorem ignore_severities_parsing_witness :
    severityOfToken "critical".data = none ∧
    toLowerAscii (trimChars " HiGh ".data) = "high".data ∧
    severityOfToken " HiGh ".data = some Severity.High ∧
    (parseSevLoop ["low".data, "critical".data]).1 = (parseSevLoop ["low".data]).1 ∧
    (buildOptions none false (some (" Low , MEDIUM ".data ++ ',' :: "critical".data))
        none).ignore_severities
      = (buildOptions none false (some " Low , MEDIUM ".data) none).ignore_severities := by
  refine ⟨by decide, by decide, ?_, ?_, ?_⟩
  · exact (ignore_severities_parsing.2.2.1 " HiGh ".data).1 (by decide)
  · exact (ignore_severities_parsing.2.2.2.1 ["low".data] [] "critical".data (by decide)).1
  · exact ignore_severities_parsing.2.2.2.2 " Low , MEDIUM ".data "critical".data
      (by decide) (by decide) none false none

/-- C9 counterexample: the ignore collections are Vecs built by `push`
with no deduplication, so the input `"low,low"` yields an
`ignore_severities` collection with a duplicate entry, contradicting the
claim that the collections contain no duplicates. -/
theorem ignore_sets_counterexample :
    (buildOptions none false (some "low,low".data) none).ignore_severities
        = [Severity.Low, Severity.Low] ∧
    ¬ (buildOptions none false (some "low,low".data) none).ignore_severities.Nodup := by
  constructor
  · decide
  · decide

/-- C9 amended: duplicated input tokens are kept as duplicate entries in
the pushed collections (they are Vecs, not sets), but a duplicated token
leaves the membership view of both ignore collections unchanged, so under
the engine's membership-based filtering it has the same effect as a
single occurrence. -/
theorem ignore_sets_membership (l1 l2 l3 : List RStr) (t : RStr) :
    (∀ x : Severity,
        x ∈ (parseSevLoop (l1 ++ t :: l2 ++ t :: l3)).1
          ↔ x ∈ (parseSevLoop (l1 ++ t :: l2 ++ l3)).1) ∧
    (∀ y : RStr,
        y ∈ (l1 ++ t :: l2 ++ t :: l3).map trimChars
          ↔ y ∈ (l1 ++ t :: l2 ++ l3).map trimChars) := by
  constructor
  · intro x
    simp only [parseSevLoop_fst, List.mem_filterMap, List.mem_append, List.mem_cons]
    constructor
    · rintro ⟨a, ha, hs⟩
      exact ⟨a, by tauto, hs⟩
    · rintro ⟨a, ha, hs⟩
      exact ⟨a, by tauto, hs⟩
  · intro y
    simp only [List.mem_map, List.mem_append, List.mem_cons]
    constructor
    · rintro ⟨a, ha, hs⟩
      exact ⟨a, by tauto, hs⟩
    · rintro ⟨a, ha, hs⟩
      exact ⟨a, by tauto, hs⟩

/-- config.rs 16-21: the `[analysis]` section. -/
structure AnalysisConfig where
  path : String
  generate_ast : Bool

/-- config.rs 23-26: the `[output]` section. -/
structure OutputConfig where
  report_file : String

/-- config.rs 28-36: the `[rules]` section; note `include_rule_types` is
parsed but, as C10 shows, never forwarded. -/
structure RulesConfig where
  ignore_severities : List RStr
  ignore_rules : List RStr
  include_rule_types : List RStr

/-- config.rs 38-46: the `[display]` section. -/
structure DisplayConfig where
  verbose : Bool
  quiet : Bool
  no_color : Bool

/-- config.rs 7-14: a parsed configuration file. -/
structure Config where
  analysis : AnalysisConfig
  output : OutputConfig
  rules : RulesConfig
  display : DisplayConfig

/-- `Vec::join(",")` on string lists. -/
def joinComma (l : List RStr) : RStr :=
  List.intercalate [','] l

/-- The parameter tuple `config::run` passes to `analyze::run`. -/
structure AnalyzeArgs where
  path : String
  templates : Option String
  output : Option String
  generate_ast : Bool
  ignore : Option RStr
  ignore_rules : Option RStr
  verbose : Bool
  quiet : Bool

/-- config.rs 79-102: translate a parsed config plus the global CLI flags
into the analyze call's arguments. -/
def configArgs (cfg : Config) (cliVerbose cliQuiet : Bool) : AnalyzeArgs :=
  { path := cfg.analysis.path
    templates := none
    output := some cfg.output.report_file
    generate_ast := cfg.analysis.generate_ast
    ignore := if cfg.rules.ignore_severities.isEmpty then none
      else some (joinComma cfg.rules.ignore_severities)
    ignore_rules := if cfg.rules.ignore_rules.isEmpty then none
      else some (joinComma cfg.rules.ignore_rules)
    verbose := cliVerbose || cfg.display.verbose
    quiet := cliQuiet || cfg.display.quiet }

/-- C7: when running from a config file the effective verbose/quiet values
are the logical OR of the CLI flag and the config's display setting; a
set flag is never overridden by an absent or false config value. -/
theorem config_flag_or (cfg : Config) (v q : Bool) :
    ((configArgs cfg v q).verbose = true ↔ (v = true ∨ cfg.display.verbose = true)) ∧
    ((configArgs cfg v q).quiet = true ↔ (q = true ∨ cfg.display.quiet = true)) ∧
    (v = true → (configArgs cfg v q).verbose = true) ∧
    (q = true → (configArgs cfg v q).quiet = true) ∧
    (cfg.display.verbose = false → (configArgs cfg v q).verbose = v) ∧
    (cfg.display.quiet = false → (configArgs cfg v q).quiet = q) := by
  refine ⟨by simp [configArgs], by simp [configArgs], fun h => by simp [configArgs, h],
    fun h => by simp [configArgs, h], fun h => by simp [configArgs, h],
    fun h => by simp [configArgs, h]⟩

/-- A concrete config whose display section enables verbose only. -/
def exConfig : Config :=
  { analysis := { path := "p", generate_ast := false }
    output := { report_file := "report" }
    rules := { ignore_severities := [], ignore_rules := [], include_rule_types := [] }
    display := { verbose := true, quiet := false, no_color := false } }

/-- Witness for C7 at a concrete config. -/
theorem config_flag_or_witness :
    (configArgs exConfig false false).verbose = true ∧
    (configArgs exConfig false true).quiet = true ∧
    (configArgs exConfig true false).quiet = false := by
  refine ⟨?_, ?_, ?_⟩
  · exact (config_flag_or exConfig false false).1.mpr (Or.inr rfl)
  · exact (config_flag_or exConfig false true).2.2.2.1 rfl
  · exact (config_flag_or exConfig true false).2.2.2.2.2 rfl

/-- C10: the `rules.include_rule_types` config list is parsed but never
forwarded — the options handed to the engine always carry the full fixed
set of the three rule types, and the arguments `config::run` builds are
independent of `include_rule_types`. -/
theorem include_rule_types_fixed :
    (∀ tpl g ign ir, (buildOptions tpl g ign ir).include_rule_types
        = [RuleType.Solana, RuleType.Anchor, RuleType.General]) ∧
    (∀ cfg : Config, ∀ v q irt,
        configArgs { cfg with rules := { cfg.rules with include_rule_types := irt } } v q
          = configArgs cfg v q) := by
  constructor
  · intro tpl g ign ir
    cases ign <;> cases ir <;> rfl
  · intro cfg v q irt
    rfl

/-- rule_info.rs 10-12: find the catalog rule whose lower-cased id equals
the lower-cased query. -/
def findRule (rules : List Rule) (q : RStr) : Option Rule :=
  rules.find? (fun r => toLowerAscii r.id == toLowerAscii q)

/-- rule_info.rs 14-48: a found rule is reported; otherwise the command
fails with a "Rule not found" error. -/
def ruleInfoRun (rules : List Rule) (q : RStr) : Except Unit Rule :=
  match findRule rules q with
  | some r => .ok r
  | none => .error ()

/-- C8: rule lookup by id is exactly case-insensitive — queries equal up
to letter casing return the same result — and the outcome is exactly
"found" (one rule) or "not found" (an error). -/
theorem rule_lookup_case_insensitive :
    (∀ rules : List Rule, ∀ q1 q2 : RStr, toLowerAscii q1 = toLowerAscii q2 →
        findRule rules q1 = findRule rules q2) ∧
    (∀ rules q,
        (∃ r, ruleInfoRun rules q = .ok r ∧ findRule rules q = some r) ∨
        (ruleInfoRun rules q = .error () ∧ findRule rules q = none)) := by
  constructor
  · intro rules q1 q2 h
    simp only [findRule, h]
  · intro rules q
    cases hf : findRule rules q with
    | some r => exact Or.inl ⟨r, by simp [ruleInfoRun, hf], rfl⟩
    | none => exact Or.inr ⟨by simp [ruleInfoRun, hf], rfl⟩

/-- A one-rule catalog used by the C8 witness. -/
def exCatalog : List Rule :=
  [{ id := "SOL-001".data, title := "t", description := "d", severity := .High }]

/-- Witness for C8: `SOL-001` and `sol-001` resolve identically. -/
theorem rule_lookup_case_insensitive_witness :
    findRule exCatalog "SOL-001".data = findRule exCatalog "sol-001".data ∧
    (findRule exCatalog "sol-001".data).isSome = true := by
  constructor
  · exact rule_lookup_case_insensitive.1 exCatalog "SOL-001".data "sol-001".data (by decide)
  · decide

/-- The environment one `analyze::run` invocation observes: the path
checks, the discovery collaborator's result, and the outcomes of the
external effects. -/
structure RunEnv where
  pathExists : Bool
  pathIsDir : Bool
  discovered : List String
  astWriteOk : Bool
  engineResult : Except String AnalysisResult
  saveOk : Bool

/-- The observable outcome of `analyze::run`: whether it returned `Ok(())`
or bailed, whether `analyze_files` was invoked, and whether the
"No Rust files found" notice was printed. -/
structure RunTrace where
  ok : Bool
  engineInvoked : Bool
  noFilesNotice : Bool
deriving DecidableEq, Repr

/-- analyze.rs 11-228: the pipeline driver's control flow. Path checks
first; an empty discovery returns `Ok(())` after the notice (line 78-85)
before any engine or option work; otherwise AST dumps (fallible), then
the engine, then either the report write or console printing. -/
def analyzeRun (env : RunEnv) (args : AnalyzeArgs) : RunTrace :=
  if !env.pathExists then ⟨false, false, false⟩
  else if !env.pathIsDir then ⟨false, false, false⟩
  else if env.discovered.isEmpty then ⟨true, false, true⟩
  else if args.generate_ast && !env.astWriteOk then ⟨false, false, false⟩
  else
    match env.engineResult with
    | .error _ => ⟨false, true, false⟩
    | .ok _ =>
      match args.output with
      | some _ => ⟨env.saveOk, true, false⟩
      | none => ⟨true, true, false⟩

/-- C6: on an existing directory where discovery finds no eligible files,
the run terminates successfully after the "no files found" notice and
the engine is never invoked. -/
theorem empty_discovery_done (env : RunEnv) (args : AnalyzeArgs)
    (h1 : env.pathExists = true) (h2 : env.pathIsDir = true)
    (h3 : env.discovered = []) :
    analyzeRun env args = { ok := true, engineInvoked := false, noFilesNotice := true } := by
  simp [analyzeRun, h1, h2, h3]

/-- A concrete environment with an empty discovery result. -/
def exRunEnv : RunEnv :=
  { pathExists := true, pathIsDir := true, discovered := [],
    astWriteOk := true, engineResult := .ok exResult, saveOk := true }

/-- Concrete analyze arguments for witnesses. -/
def exArgs : AnalyzeArgs :=
  { path := "p", templates := none, output := none, generate_ast := false,
    ignore := none, ignore_rules := none, verbose := false, quiet := false }

/-- Witness for C6. -/
theorem empty_discovery_done_witness :
    analyzeRun exRunEnv exArgs
      = { ok := true, engineInvoked := false, noFilesNotice := true } :=
  empty_discovery_done exRunEnv exArgs rfl rfl rfl

/-- The characters after the last `/` of a path string (the candidate
file name). The model targets the path strings `save_report` manipulates
via `to_string_lossy`, without trailing separators or `.` components. -/
def lastComponent (p : RStr) : RStr :=
  (p.reverse.takeWhile (fun c => c ≠ '/')).reverse

/-- `Path::file_name`: the last component, or `None` when the path ends
in `..` (or `.`, or has an empty last component), per std's contract. -/
def fileName (p : RStr) : Option RStr :=
  if lastComponent p = [] ∨ lastComponent p = ['.'] ∨ lastComponent p = ['.', '.'] then none
  else some (lastComponent p)

/-- Split a file name at its last dot into stem and extension the way
`Path::extension`/`file_stem` do: an extension exists only when the part
before the last dot is non-empty (a leading-dot name has no extension). -/
def lastDotSplit (name : RStr) : Option (RStr × RStr) :=
  match name.reverse.drop ((name.reverse.takeWhile (fun c => c ≠ '.')).length) with
  | '.' :: stemRev =>
    if stemRev = [] then none
    else some (stemRev.reverse, (name.reverse.takeWhile (fun c => c ≠ '.')).reverse)
  | _ => none

/-- `PathBuf::set_extension("md")`: a no-op when the path has no file
name; otherwise the extension of the file name is replaced by `md`, or
`.md` is appended when there is none. -/
def setExtMd (p : RStr) : RStr :=
  match fileName p with
  | none => p
  | some name =>
    let stem := match lastDotSplit name with
      | some (st, _) => st
      | none => name
    p.take (p.length - name.length) ++ stem ++ '.' :: "md".data

/-- analyze.rs 389-396: the final report path — the requested path when it
already ends in `.md` or `.markdown`, else the path with its extension
set to `md`. -/
def finalReportPath (output_path : RStr) : RStr :=
  if ".md".data.isSuffixOf output_path || ".markdown".data.isSuffixOf output_path
  then output_path
  else setExtMd output_path

/-- C5 counterexample: the output path `..` has no file name, so
`set_extension` is a no-op and the final path does not end in the
document extension — the claimed universal replace-or-append fails. -/
theorem report_path_counterexample :
    finalReportPath "..".data = "..".data ∧
    ".md".data.isSuffixOf (finalReportPath "..".data) = false := by
  constructor
  · decide
  · decide

/-- C5 amended: a path already ending in `.md` or `.markdown` is left
unchanged; any other path that has a file name gets its extension
replaced (or appended), so the final path ends in `.md` — in particular
the extensionless `report` becomes `report.md`; a path without a file
name (such as `..`) is left unchanged. -/
theorem report_path_normalization :
    (∀ p : RStr, (".md".data.isSuffixOf p || ".markdown".data.isSuffixOf p) = true →
        finalReportPath p = p) ∧
    (∀ p : RStr, (".md".data.isSuffixOf p || ".markdown".data.isSuffixOf p) = false →
        fileName p ≠ none →
        ".md".data.isSuffixOf (finalReportPath p) = true) ∧
    finalReportPath "report".data = "report.md".data ∧
    (∀ p : RStr, fileName p = none → finalReportPath p = setExtMd p ∨ finalReportPath p = p) := by
  refine ⟨fun p h => ?_, fun p hcond hname => ?_, by decide, fun p h => ?_⟩
  · simp [finalReportPath, h]
  · obtain ⟨name, hn⟩ := Option.ne_none_iff_exists'.mp hname
    simp only [finalReportPath, hcond, Bool.false_eq_true, if_false, setExtMd, hn]
    rw [List.isSuffixOf_iff_suffix]
    cases hsplit : lastDotSplit name with
    | none => exact List.suffix_append _ _
    | some st => exact List.suffix_append _ _
  · unfold finalReportPath
    split
    · exact Or.inr rfl
    · exact Or.inl rfl

/-- Witness for C5's amended statement at concrete paths. -/
theorem report_path_normalization_witness :
    finalReportPath "report.md".data = "report.md".data ∧
    ".md".data.isSuffixOf (finalReportPath "notes.txt".data) = true ∧
    (finalReportPath "..".data = setExtMd "..".data ∨ finalReportPath "..".data = "..".data) := by
  refine ⟨?_, ?_, ?_⟩
  · exact report_path_normalization.1 "report.md".data (by decide)
  · exact report_path_normalization.2.1 "notes.txt".data (by decide) (by decide)
  · exact report_path_normalization.2.2.2 "..".data (by decide)

end Eloizer
